import Mathlib

/-!
Verification of the input-validation / safe-path-construction layer of the
AdventOfCode scaffolding repository: the value objects `Year`, `Day`,
`Language`, `SafePath` and the shared validators
(`validateNumberInRange`, `validateNoPathTraversal`).

Strings are embedded as `List Char` (the character data of a JavaScript
string).  JavaScript numbers are embedded as rationals together with the
distinguished values `NaN`, `Infinity` and `-Infinity`; every value an actual
JavaScript number (an IEEE double) can take is a dyadic rational, so this is
a superset of the real value space, and none of the claims depend on binary
rounding.  Node's `path.posix` functions (`resolve`, `join`, `normalize`,
`relative`, `sep`) are embedded from their documented algorithms, with the
segment-normalisation pass (`normalizeString` in Node's source) expressed on
the list of `/`-separated segments.
-/

set_option maxHeartbeats 1000000

namespace AoC

/-- Character data of a JavaScript string. -/
abbrev Str := List Char

/-- Whitespace characters recognised by JavaScript `trim` / `parseInt`
(the common ASCII ones; none of the claims involve exotic Unicode spaces). -/
def isWS (c : Char) : Bool :=
  c = ' ' ∨ c = '\t' ∨ c = '\n' ∨ c = '\r' ∨ c = '\x0b' ∨ c = '\x0c'

/-- Decimal digit test, as in the regular expression class `\d`. -/
def isDigitCh (c : Char) : Bool :=
  '0' ≤ c ∧ c ≤ '9'

/-- Removes trailing whitespace, as the right half of JavaScript `trim`. -/
def dropTrailingWS : Str → Str
  | [] => []
  | c :: rest =>
    let r := dropTrailingWS rest
    if r = [] ∧ isWS c then [] else c :: r

/-- JavaScript `String.prototype.trim`: strip leading and trailing
whitespace. -/
def jsTrim (s : Str) : Str :=
  dropTrailingWS (s.dropWhile isWS)

/-- Does the string contain the two-character substring `..`
(JavaScript `str.includes('..')`)? -/
def hasDotDot : Str → Bool
  | [] => false
  | [_] => false
  | a :: b :: rest => if a = '.' ∧ b = '.' then true else hasDotDot (b :: rest)

/-- A JavaScript number: `NaN`, the two infinities, or a finite value
(embedded as a rational). -/
inductive JSNum where
  | nan
  | posInf
  | negInf
  | fin (q : ℚ)
  deriving DecidableEq

/-- A JavaScript value of the shapes the validators receive: `null`,
`undefined`, a number, or a string. -/
inductive JSValue where
  | null
  | undef
  | num (n : JSNum)
  | str (s : Str)
  deriving DecidableEq

/-- Numeric value of a list of decimal digit characters. -/
def digitsVal (ds : Str) : ℕ :=
  ds.foldl (fun acc c => 10 * acc + (c.toNat - '0'.toNat)) 0

/-- JavaScript `parseInt(s, 10)`: skip leading whitespace, read an optional
sign, then the longest prefix of decimal digits; `NaN` if there is none. -/
def parseInt10 (s : Str) : JSNum :=
  let s1 := s.dropWhile isWS
  let signNeg : Bool := s1.head? = some '-'
  let s2 := if s1.head? = some '-' ∨ s1.head? = some '+' then s1.tail else s1
  let digits := s2.takeWhile isDigitCh
  if digits = [] then .nan
  else .fin (((if signNeg then -(digitsVal digits : ℤ) else (digitsVal digits : ℤ)) : ℤ) : ℚ)

/-- Decimal character data of a natural number (JavaScript rendering of a
non-negative integer). -/
def decRepr (n : ℕ) : Str := (Nat.repr n).data

/-- Decimal character data of an integer. -/
def intRepr (i : ℤ) : Str :=
  if i < 0 then '-' :: decRepr i.natAbs else decRepr i.natAbs

/-- Decimal digits of the fractional part of a non-negative rational, with
fuel.  Every value of an actual JavaScript number is a dyadic rational, whose
decimal expansion terminates well within the fuel; the definition is total on
the larger model domain and still produces a digit string. -/
def fracDigits : ℚ → ℕ → Str
  | _, 0 => []
  | f, fuel + 1 =>
    if f = 0 then []
    else
      let d := (⌊f * 10⌋).toNat
      Char.ofNat ('0'.toNat + d) :: fracDigits (f * 10 - ⌊f * 10⌋) fuel

/-- JavaScript `String(n)` for a number.  Integers render as their decimal
form; non-integers as integer part, a dot, and fractional digits. -/
def jsNumToString (n : JSNum) : Str :=
  match n with
  | .nan => "NaN".data
  | .posInf => "Infinity".data
  | .negInf => "-Infinity".data
  | .fin q =>
    if q.den = 1 then intRepr q.num
    else if q < 0 then '-' :: (intRepr ⌊-q⌋ ++ '.' :: fracDigits (-q - ⌊-q⌋) 40)
    else intRepr ⌊q⌋ ++ '.' :: fracDigits (q - ⌊q⌋) 40

/-- JavaScript `String(value)` for the value shapes the validators receive. -/
def jsString (v : JSValue) : Str :=
  match v with
  | .null => "null".data
  | .undef => "undefined".data
  | .num n => jsNumToString n
  | .str s => s

/-- JavaScript `Number(value)` coercion for the value shapes that reach it in
the validators (`Number(null) = 0`, `Number(undefined) = NaN`, numbers are
unchanged; the string branch is never taken by the embedded code). -/
def jsToNumber (v : JSValue) : JSNum :=
  match v with
  | .null => .fin 0
  | .undef => .nan
  | .num n => n
  | .str s => parseInt10 s

/-- JavaScript `n < m` for a number against a finite bound. -/
def jnumLtQ (n : JSNum) (m : ℚ) : Bool :=
  match n with
  | .nan => false
  | .posInf => false
  | .negInf => true
  | .fin q => q < m

/-- JavaScript `n > m` for a number against a finite bound. -/
def jnumGtQ (n : JSNum) (m : ℚ) : Bool :=
  match n with
  | .nan => false
  | .posInf => true
  | .negInf => false
  | .fin q => m < q

/-- Validation failures raised by the domain layer, tagged with the kind
string and the offending data exactly as the thrown `Error` messages are. -/
inductive VErr where
  | notANumber (kind : Str) (raw : JSValue)
  | outOfRange (kind : Str) (num : JSNum) (lo hi : ℚ)
  | badYearFormat (raw : JSValue)
  | pathChars (kind : Str) (raw : JSValue)
  | langNotString (raw : JSValue)
  | langIllegalChars (raw : JSValue)
  | langStartsWith (raw : JSValue)
  | langTooLong (raw : JSValue)
  deriving DecidableEq

/-- Embedding of `validateNumberInRange` from `src/domain/validators.js`:
reject `null`/`undefined`, coerce (strings via `parseInt(value, 10)`, others
via `Number(value)`), reject `NaN` and non-finite values, then check the
inclusive range.  Pure: success returns the number and nothing else. -/
def validateNumberInRange (value : JSValue) (lo hi : ℚ) (kind : Str) :
    Except VErr ℚ :=
  match value with
  | .null => .error (.notANumber kind .null)
  | .undef => .error (.notANumber kind .undef)
  | v =>
    let num : JSNum := match v with
      | .str s => parseInt10 s
      | w => jsToNumber w
    match num with
    | .nan => .error (.notANumber kind v)
    | .posInf => .error (.notANumber kind v)
    | .negInf => .error (.notANumber kind v)
    | .fin q =>
      if q < lo ∨ hi < q then .error (.outOfRange kind (.fin q) lo hi)
      else .ok q

/-- Embedding of `validateNoPathTraversal` from `src/domain/validators.js`
(and its identical local copy in `src/domain/Day.js`): stringify, trim, and
reject `/`, `\` and the substring `..`. -/
def validateNoPathTraversal (value : JSValue) (kind : Str) :
    Except VErr Unit :=
  let str := jsTrim (jsString value)
  if str.contains '/' ∨ str.contains '\\' ∨ hasDotDot str then
    .error (.pathChars kind value)
  else .ok ()

/-- Character class of the regular expression `^\d{4}$` applied as a whole:
exactly four decimal digits. -/
def isFourDigits (s : Str) : Bool :=
  s.length = 4 ∧ s.all isDigitCh

/-- Year value object (`src/domain/Year.js`): holds the number returned by
`validateNumberInRange`. -/
structure Year where
  value : ℚ
  deriving DecidableEq

/-- Embedding of the `Year` constructor: range check with bounds
`[2015, 2099]`, then the exact-4-digit format check on the trimmed string
form, then the path-traversal character check. -/
def Year.make (value : JSValue) : Except VErr Year :=
  match validateNumberInRange value 2015 2099 "year".data with
  | .error e => .error e
  | .ok year =>
    if ¬ isFourDigits (jsTrim (jsString value)) then .error (.badYearFormat value)
    else
      match validateNoPathTraversal value "year".data with
      | .error e => .error e
      | .ok _ => .ok ⟨year⟩

/-- Embedding of `Year.prototype.toString`: `String(this.#value)`. -/
def Year.toString (y : Year) : Str := jsNumToString (.fin y.value)

/-- Embedding of `Year.prototype.toFolderName`: identical to `toString`. -/
def Year.toFolderName (y : Year) : Str := y.toString

/-- Embedding of `Year.prototype.equals` (between constructed instances):
compares the held values. -/
def Year.equals (a b : Year) : Bool := a.value = b.value

/-- Embedding of the local `validateNumberInRange` copy in
`src/domain/Day.js`: strings go through `parseInt(value, 10)`, any other
value is kept raw and participates in `isNaN` and the `<`/`>` comparisons
through JavaScript numeric coercion (modelled by `jsToNumber`).  There is no
`isFinite` check, but with finite bounds an infinite value always fails the
range comparison.  The success value is the (necessarily finite) number. -/
def dayValidateNumberInRange (value : JSValue) (lo hi : ℚ) (kind : Str) :
    Except VErr ℚ :=
  let num : JSNum := match value with
    | .str s => parseInt10 s
    | w => jsToNumber w
  if num = .nan then .error (.notANumber kind value)
  else if jnumLtQ num lo ∨ jnumGtQ num hi then .error (.outOfRange kind num lo hi)
  else
    match num with
    | .fin q => .ok q
    | n => .error (.outOfRange kind n lo hi)

/-- Day value object (`src/domain/Day.js`). -/
structure Day where
  value : ℚ
  deriving DecidableEq

/-- Embedding of the `Day` constructor: local range check with bounds
`[1, 25]`, then the path-traversal character check. -/
def Day.make (value : JSValue) : Except VErr Day :=
  match dayValidateNumberInRange value 1 25 "day".data with
  | .error e => .error e
  | .ok day =>
    match validateNoPathTraversal value "day".data with
    | .error e => .error e
    | .ok _ => .ok ⟨day⟩

/-- JavaScript `s.padStart(2, '0')`. -/
def padStart2Zero (s : Str) : Str :=
  if s.length < 2 then List.replicate (2 - s.length) '0' ++ s else s

/-- Embedding of `Day.prototype.toPaddedString`:
`String(this.#value).padStart(2, '0')`. -/
def Day.toPaddedString (d : Day) : Str :=
  padStart2Zero (jsNumToString (.fin d.value))

/-- Embedding of `Day.prototype.toFolderName`: the fixed prefix `day`
concatenated with the padded string. -/
def Day.toFolderName (d : Day) : Str := "day".data ++ d.toPaddedString

/-- Embedding of `Day.prototype.equals` (between constructed instances):
compares the held values. -/
def Day.equals (a b : Day) : Bool := a.value = b.value

/-- Character class `[a-zA-Z0-9+#_-]` from `validateLanguageFormat`. -/
def isLangChar (c : Char) : Bool :=
  ('a' ≤ c ∧ c ≤ 'z') ∨ ('A' ≤ c ∧ c ≤ 'Z') ∨ ('0' ≤ c ∧ c ≤ '9') ∨
    c = '+' ∨ c = '#' ∨ c = '_' ∨ c = '-'

/-- Embedding of `validateLanguageFormat` from `src/domain/Language.js`:
non-string or empty-after-trim fails; then the whitelist regular expression
`^[a-zA-Z0-9+#_-]+$`, the leading `.`/`-` check and the 50-character length
cap, all on the trimmed value; success returns the trimmed value. -/
def validateLanguageFormat (value : JSValue) : Except VErr Str :=
  match value with
  | .str s =>
    if jsTrim s = [] then .error (.langNotString value)
    else
      let trimmed := jsTrim s
      if ¬ trimmed.all isLangChar then .error (.langIllegalChars value)
      else if trimmed.head? = some '.' ∨ trimmed.head? = some '-' then
        .error (.langStartsWith value)
      else if 50 < trimmed.length then .error (.langTooLong value)
      else .ok trimmed
  | v => .error (.langNotString v)

/-- JavaScript `toLowerCase` on the characters that can appear in a validated
language name (ASCII letters; other characters are unchanged). -/
def jsToLowerChar (c : Char) : Char :=
  if 'A' ≤ c ∧ c ≤ 'Z' then Char.ofNat (c.toNat + 32) else c

/-- Language value object (`src/domain/Language.js`): original-case trimmed
value and its lowercase normalisation. -/
structure Language where
  value : Str
  normalizedValue : Str
  deriving DecidableEq

/-- Embedding of the `Language` constructor. -/
def Language.make (value : JSValue) : Except VErr Language :=
  match validateLanguageFormat value with
  | .error e => .error e
  | .ok trimmed => .ok ⟨trimmed, trimmed.map jsToLowerChar⟩

/-- Embedding of `Language.prototype.toFolderName`: the normalised value. -/
def Language.toFolderName (l : Language) : Str := l.normalizedValue

/-- Splits a string at every `/` (keeping empty pieces), the decomposition on
which Node's `normalizeString` pass operates. -/
def splitSlash : Str → List Str
  | [] => [[]]
  | c :: rest =>
    match splitSlash rest with
    | [] => [[c]]
    | s :: ss => if c = '/' then [] :: s :: ss else (c :: s) :: ss

/-- Joins pieces with `/` between them (inverse of `splitSlash` on slash-free
pieces). -/
def joinSlash : List Str → Str
  | [] => []
  | s :: rest =>
    match rest with
    | [] => s
    | _ :: _ => s ++ '/' :: joinSlash rest

/-- One step of Node's `normalizeString`: skip empty and `.` segments, have
`..` pop the last kept segment (or, when `allowAboveRoot`, accumulate), and
keep any other segment.  The accumulator holds kept segments in reverse. -/
def normSegStep (allowAboveRoot : Bool) (acc : List Str) (seg : Str) : List Str :=
  if seg = [] ∨ seg = ['.'] then acc
  else if seg = ['.', '.'] then
    match acc with
    | t :: rest =>
      if t ≠ ['.', '.'] then rest
      else if allowAboveRoot then ['.', '.'] :: acc else acc
    | [] => if allowAboveRoot then [['.', '.']] else []
  else seg :: acc

/-- Folds `normSegStep` over a list of segments. -/
def normCore (allowAboveRoot : Bool) (acc : List Str) (segs : List Str) : List Str :=
  segs.foldl (normSegStep allowAboveRoot) acc

/-- Kept segments of Node's `normalizeString`, in order. -/
def normalizeSegs (allowAboveRoot : Bool) (segs : List Str) : List Str :=
  (normCore allowAboveRoot [] segs).reverse

/-- Node's `normalizeString(path, allowAboveRoot, '/')`: resolve `.` and `..`
segments and collapse repeated separators. -/
def normalizeString (p : Str) (allowAboveRoot : Bool) : Str :=
  joinSlash (normalizeSegs allowAboveRoot (splitSlash p))

/-- The right-to-left accumulation loop of `path.posix.resolve`: prepend each
non-empty path with a separator, stopping at the first absolute one.  The
argument list is given right-to-left with the working directory last. -/
def resolveAccum (ps : List Str) : Str × Bool :=
  ps.foldl
    (fun st p =>
      if st.2 then st
      else if p = [] then st
      else (p ++ '/' :: st.1, p.head? = some '/'))
    ([], false)

/-- Embedding of `path.posix.resolve(...args)`, with the process working
directory passed explicitly. -/
def posixResolve (cwd : Str) (args : List Str) : Str :=
  let st := resolveAccum (args.reverse ++ [cwd])
  let norm := normalizeString st.1 (!st.2)
  if st.2 then (if norm = [] then ['/'] else '/' :: norm)
  else (if norm = [] then ['.'] else norm)

/-- Embedding of `path.posix.normalize(p)`. -/
def posixNormalize (p : Str) : Str :=
  if p = [] then ['.']
  else
    let isAbs : Bool := p.head? = some '/'
    let trailing : Bool := p.getLast? = some '/'
    let n := normalizeString p (!isAbs)
    if n = [] then
      if isAbs then ['/'] else if trailing then ['.', '/'] else ['.']
    else
      let n2 := if trailing then n ++ ['/'] else n
      if isAbs then '/' :: n2 else n2

/-- Embedding of `path.posix.join(...args)`: drop empty arguments, join with
`/`, normalize ( `.` when nothing remains). -/
def posixJoin (args : List Str) : Str :=
  let ne := args.filter (fun a => !a.isEmpty)
  if ne = [] then ['.']
  else posixNormalize (joinSlash ne)

/-- Segments of a canonical absolute path (used by the `relative`
computation): everything after the leading `/`, with empty pieces dropped. -/
def absSegs (p : Str) : List Str :=
  ((splitSlash p).tail).filter (fun a => !a.isEmpty)

/-- Length of the longest common prefix of two segment lists. -/
def commonPrefixLen : List Str → List Str → ℕ
  | x :: xs, y :: ys => if x = y then commonPrefixLen xs ys + 1 else 0
  | _, _ => 0

/-- Embedding of `path.posix.relative(fromP, toP)`: resolve both, and on the
canonical absolute results climb out of the non-shared part of `fromP` with
`..` segments and descend into the non-shared part of `toP`. -/
def posixRelative (cwd fromP toP : Str) : Str :=
  let f := posixResolve cwd [fromP]
  let t := posixResolve cwd [toP]
  if f = t then []
  else
    let fs := absSegs f
    let ts := absSegs t
    let c := commonPrefixLen fs ts
    joinSlash (List.replicate (fs.length - c) ['.', '.'] ++ ts.drop c)

/-- JavaScript `s.startsWith(p)`. -/
def startsWithStr (s p : Str) : Bool :=
  match s, p with
  | _, [] => true
  | [], _ :: _ => false
  | c :: s1, d :: ps => c = d && startsWithStr s1 ps

/-- Embedding of `validatePathWithinBase` from `src/domain/SafePath.js` as
the boundary predicate it tests:
`resolvedPath.startsWith(basePath + path.sep) || resolvedPath === basePath`. -/
def validatePathWithinBase (resolvedPath basePath : Str) : Bool :=
  startsWithStr resolvedPath (basePath ++ ['/']) || resolvedPath = basePath

/-- The error thrown by `validatePathWithinBase`, carrying both paths. -/
inductive PathErr where
  | pathTraversal (resolvedPath basePath : Str)
  deriving DecidableEq

/-- SafePath value object (`src/domain/SafePath.js`): resolved target path
and resolved base path. -/
structure SafePath where
  resolvedPath : Str
  basePath : Str
  deriving DecidableEq

/-- The `this.#basePath = path.resolve(basePath)` step of the constructor. -/
def SafePath.resolveBase (cwd basePath : Str) : Str :=
  posixResolve cwd [basePath]

/-- The candidate path of the constructor:
`path.resolve(path.join(this.#basePath, ...segments))`. -/
def SafePath.resolveCandidate (cwd basePath : Str) (segments : List Str) : Str :=
  posixResolve cwd [posixJoin (SafePath.resolveBase cwd basePath :: segments)]

/-- Embedding of the `SafePath` constructor: resolve the base, join and
resolve the candidate, and admit it only if it passes
`validatePathWithinBase`. -/
def SafePath.make (cwd basePath : Str) (segments : List Str) :
    Except PathErr SafePath :=
  let base := SafePath.resolveBase cwd basePath
  let resolved := SafePath.resolveCandidate cwd basePath segments
  if validatePathWithinBase resolved base then .ok ⟨resolved, base⟩
  else .error (.pathTraversal resolved base)

/-- Embedding of `SafePath.prototype.toString`. -/
def SafePath.toString (p : SafePath) : Str := p.resolvedPath

/-- Embedding of `SafePath.prototype.getValue`. -/
def SafePath.getValue (p : SafePath) : Str := p.resolvedPath

/-- Embedding of `SafePath.prototype.getBasePath`. -/
def SafePath.getBasePath (p : SafePath) : Str := p.basePath

/-- Embedding of `SafePath.prototype.append`: recompute the relative path
from the base to the current target and re-run the constructor on the same
base with that relative path plus the new segments. -/
def SafePath.append (cwd : Str) (p : SafePath) (segments : List Str) :
    Except PathErr SafePath :=
  let relativePath := posixRelative cwd p.basePath p.resolvedPath
  SafePath.make cwd p.basePath (relativePath :: segments)

/-- Embedding of `SafePath.prototype.equals` (between constructed
instances): compares resolved paths. -/
def SafePath.equals (a b : SafePath) : Bool := a.resolvedPath = b.resolvedPath

/-- Rendering of a canonical absolute path from its segments: `/` followed by
the `/`-joined segments (just `/` when there are none). -/
def renderAbs (segs : List Str) : Str := '/' :: joinSlash segs

/-- A segment is good when it is what the absolute normalisation pass can
keep: non-empty, not `.`, not `..`, and slash-free. -/
def GoodSeg (s : Str) : Prop :=
  s ≠ [] ∧ s ≠ ['.'] ∧ s ≠ ['.', '.'] ∧ '/' ∉ s

/-- All segments of a list are good. -/
def GoodSegs (l : List Str) : Prop := ∀ s ∈ l, GoodSeg s

/-- Canonical segment list of `path.resolve(basePath)` (the segments of
`SafePath.resolveBase`). -/
def baseSegs (cwd basePath : Str) : List Str :=
  normalizeSegs false (splitSlash (resolveAccum ([basePath].reverse ++ [cwd])).1)

/-- Canonical segment list of the constructor's resolved candidate path
(`SafePath.resolveCandidate`): the base segments extended by the normalised
segments of the joined argument segments. -/
def candSegs (cwd basePath : Str) (segments : List Str) : List Str :=
  (normCore false (baseSegs cwd basePath).reverse
    (((segments.filter (fun a => !a.isEmpty)).map splitSlash).flatten)).reverse

/-- Inputs the spec calls `null`/absent, non-numeric, or non-finite for
`validateNumberInRange`: `null`, `undefined`, a string with no parseable
decimal prefix, or a number that is not finite. -/
def badNumericInput (v : JSValue) : Prop :=
  v = .null ∨ v = .undef ∨ (∃ w, v = .str w ∧ parseInt10 w = .nan) ∨
    (∃ n, v = .num n ∧ ∀ q, n ≠ .fin q)

/-- The numeric coercion the `Year` range check applies to its input
(strings via `parseInt(·, 10)`, anything else via `Number`). -/
def yearCoerced (v : JSValue) : JSNum :=
  match v with
  | .str w => parseInt10 w
  | w => jsToNumber w

/-- The input's numeric value lies outside `[2015, 2099]` (vacuously false
when the coercion is not finite; such inputs never have a 4-digit string
form). -/
def outsideYearRange (v : JSValue) : Prop :=
  match yearCoerced v with
  | .fin q => q < 2015 ∨ 2099 < q
  | _ => False

/-- The path-traversal characters the spec names: `/`, `\`, or the substring
`..`. -/
def hasTraversalChars (s : Str) : Bool :=
  s.contains '/' || s.contains '\\' || hasDotDot s

/-- Zero-pad to two digits, following the spec's words `zero-pad(d, 2)`. -/
def specZeroPad2 (s : Str) : Str :=
  if s.length < 2 then '0' :: s else s

/-- Folder name the spec prescribes for a day: `"day" + zero-pad(d, 2)`. -/
def specDayFolder (d : ℕ) : Str :=
  "day".data ++ specZeroPad2 (decRepr d)

instance {E A : Type} [DecidableEq E] [DecidableEq A] : DecidableEq (Except E A)
  | .ok a, .ok b =>
    if h : a = b then .isTrue (by rw [h]) else .isFalse (by intro hh; cases hh; exact h rfl)
  | .error a, .error b =>
    if h : a = b then .isTrue (by rw [h]) else .isFalse (by intro hh; cases hh; exact h rfl)
  | .ok _, .error _ => .isFalse (by intro hh; cases hh)
  | .error _, .ok _ => .isFalse (by intro hh; cases hh)

/-! General lemmas about the JavaScript string primitives. -/

theorem except_error_of_not_ok {E A : Type} {x : Except E A}
    (h : ∀ a, x ≠ .ok a) : ∃ e, x = .error e := by
  cases x with
  | ok a => exact absurd rfl (h a)
  | error e => exact ⟨e, rfl⟩

theorem mem_dropWhile_of_mem {p : Char → Bool} {c : Char} (hp : p c = false) :
    ∀ {l : Str}, c ∈ l → c ∈ l.dropWhile p := by
  intro l hm
  induction l with
  | nil => cases hm
  | cons a t ih =>
    rw [List.dropWhile_cons]
    by_cases ha : p a = true
    · simp only [ha, if_true]
      rcases List.mem_cons.mp hm with h1 | h2
      · subst h1; rw [hp] at ha; cases ha
      · exact ih h2
    · simp only [ha, if_false]
      exact hm

theorem mem_dropTrailingWS {c : Char} (hc : isWS c = false) :
    ∀ {l : Str}, c ∈ l → c ∈ dropTrailingWS l := by
  intro l hm
  induction l with
  | nil => cases hm
  | cons a t ih =>
    simp only [dropTrailingWS]
    split
    · next hcond =>
      rcases List.mem_cons.mp hm with h1 | h2
      · subst h1; rw [hc] at hcond; simp at hcond
      · have := ih h2
        rw [hcond.1] at this
        cases this
    · next hcond =>
      rcases List.mem_cons.mp hm with h1 | h2
      · subst h1; exact List.mem_cons_self _ _
      · exact List.mem_cons_of_mem _ (ih h2)

theorem mem_jsTrim {c : Char} (hc : isWS c = false) {l : Str} (hm : c ∈ l) :
    c ∈ jsTrim l :=
  mem_dropTrailingWS hc (mem_dropWhile_of_mem hc hm)

theorem hasDotDot_cons {l : Str} (h : hasDotDot l = true) (c : Char) :
    hasDotDot (c :: l) = true := by
  cases l with
  | nil => cases h
  | cons b t =>
    simp only [hasDotDot]
    split
    · rfl
    · exact h

theorem hasDotDot_dropWhileWS {l : Str} (h : hasDotDot l = true) :
    hasDotDot (l.dropWhile isWS) = true := by
  induction l with
  | nil => cases h
  | cons a t ih =>
    rw [List.dropWhile_cons]
    by_cases ha : isWS a = true
    · simp only [ha, if_true]
      apply ih
      cases t with
      | nil => cases h
      | cons b t2 =>
        have hadot : a ≠ '.' := by
          intro he; subst he; simp [isWS] at ha
        simpa only [hasDotDot, if_neg (fun hh : a = '.' ∧ b = '.' => hadot hh.1)] using h
    · simp only [ha, if_false]
      exact h

theorem dropTrailingWS_cons_of_not_ws {c : Char} (hc : isWS c = false) (l : Str) :
    dropTrailingWS (c :: l) = c :: dropTrailingWS l := by
  simp only [dropTrailingWS]
  rw [if_neg]
  intro hcond
  rw [hc] at hcond
  simp at hcond

theorem hasDotDot_dropTrailingWS {l : Str} (h : hasDotDot l = true) :
    hasDotDot (dropTrailingWS l) = true := by
  induction l with
  | nil => cases h
  | cons a t ih =>
    cases t with
    | nil => cases h
    | cons b t2 =>
      by_cases hdots : a = '.' ∧ b = '.'
      · obtain ⟨ha, hb⟩ := hdots
        subst ha; subst hb
        rw [dropTrailingWS_cons_of_not_ws (by decide),
          dropTrailingWS_cons_of_not_ws (by decide)]
        simp [hasDotDot]
      · have ht : hasDotDot (b :: t2) = true := by
          simpa only [hasDotDot, if_neg hdots] using h
        have ih2 := ih ht
        have hne : dropTrailingWS (b :: t2) ≠ [] := by
          intro he; rw [he] at ih2; cases ih2
        simp only [dropTrailingWS]
        rw [if_neg (fun hcond => hne hcond.1)]
        exact hasDotDot_cons ih2 a

theorem hasDotDot_jsTrim {l : Str} (h : hasDotDot l = true) :
    hasDotDot (jsTrim l) = true :=
  hasDotDot_dropTrailingWS (hasDotDot_dropWhileWS h)

theorem jsTrim_cons_of_not_ws {c : Char} (hc : isWS c = false) (l : Str) :
    jsTrim (c :: l) = c :: dropTrailingWS l := by
  unfold jsTrim
  rw [List.dropWhile_cons, if_neg (by rw [hc]; intro hh; cases hh)]
  exact dropTrailingWS_cons_of_not_ws hc l

theorem parseInt10_den {s : Str} {q : ℚ} (h : parseInt10 s = .fin q) :
    q.den = 1 := by
  unfold parseInt10 at h
  dsimp only at h
  split at h <;> split at h <;>
    first
      | exact JSNum.noConfusion h
      | (injection h with h2; rw [← h2]; exact Rat.den_intCast _)

theorem validateNumberInRange_ok_elim {v : JSValue} {lo hi : ℚ} {k : Str}
    {q : ℚ} (h : validateNumberInRange v lo hi k = .ok q) :
    yearCoerced v = .fin q ∧ lo ≤ q ∧ q ≤ hi := by
  cases v with
  | null => exact absurd h (by simp [validateNumberInRange])
  | undef => exact absurd h (by simp [validateNumberInRange])
  | str w =>
    simp only [validateNumberInRange, jsToNumber] at h
    split at h
    · exact Except.noConfusion h
    · exact Except.noConfusion h
    · exact Except.noConfusion h
    · rename_i q' heq
      split at h
      · exact Except.noConfusion h
      · rename_i hrange
        injection h with h2
        subst h2
        push_neg at hrange
        exact ⟨by simpa [yearCoerced] using heq, hrange.1, hrange.2⟩
  | num m =>
    simp only [validateNumberInRange, jsToNumber] at h
    split at h
    · exact Except.noConfusion h
    · exact Except.noConfusion h
    · exact Except.noConfusion h
    · rename_i q'
      split at h
      · exact Except.noConfusion h
      · rename_i hrange
        injection h with h2
        subst h2
        push_neg at hrange
        exact ⟨by simp [yearCoerced, jsToNumber], hrange.1, hrange.2⟩

theorem validateNoPathTraversal_ok_elim {v : JSValue} {k : Str}
    (h : validateNoPathTraversal v k = .ok ()) :
    (jsTrim (jsString v)).contains '/' = false ∧
      (jsTrim (jsString v)).contains '\\' = false ∧
      hasDotDot (jsTrim (jsString v)) = false := by
  unfold validateNoPathTraversal at h
  dsimp only at h
  split at h
  · exact Except.noConfusion h
  · rename_i hcond
    simp only [not_or, Bool.not_eq_true] at hcond
    exact ⟨hcond.1, hcond.2.1, hcond.2.2⟩

theorem containsChar_iff {c : Char} {l : Str} : l.contains c = true ↔ c ∈ l := by
  simp [List.contains]

/-! Lemmas about `splitSlash` and `joinSlash`. -/

theorem splitSlash_ne_nil (s : Str) : splitSlash s ≠ [] := by
  induction s with
  | nil => simp [splitSlash]
  | cons c rest ih =>
    simp only [splitSlash]
    split
    · simp
    · split <;> simp

theorem splitSlash_cons_eq (c : Char) (rest : Str) {x : Str} {xs : List Str}
    (h : splitSlash rest = x :: xs) :
    splitSlash (c :: rest) = if c = '/' then [] :: x :: xs else (c :: x) :: xs := by
  simp only [splitSlash, h]

theorem splitSlash_append (a b : Str) :
    splitSlash (a ++ '/' :: b) = splitSlash a ++ splitSlash b := by
  induction a with
  | nil =>
    obtain ⟨x, xs, hb⟩ := List.exists_cons_of_ne_nil (splitSlash_ne_nil b)
    rw [List.nil_append, splitSlash_cons_eq '/' b hb, if_pos rfl, hb]
    rfl
  | cons c a' ih =>
    obtain ⟨y, ys, ha'⟩ := List.exists_cons_of_ne_nil (splitSlash_ne_nil a')
    have hshape : splitSlash (a' ++ '/' :: b) = y :: (ys ++ splitSlash b) := by
      rw [ih, ha', List.cons_append]
    rw [List.cons_append, splitSlash_cons_eq c _ hshape, splitSlash_cons_eq c a' ha']
    split
    · simp
    · simp

theorem mem_splitSlash_no_slash (s : Str) : ∀ x ∈ splitSlash s, '/' ∉ x := by
  induction s with
  | nil =>
    intro x hx
    simp [splitSlash] at hx
    simp [hx]
  | cons c rest ih =>
    obtain ⟨y, ys, hsp⟩ := List.exists_cons_of_ne_nil (splitSlash_ne_nil rest)
    intro x hx
    rw [splitSlash_cons_eq c rest hsp] at hx
    split at hx
    · rcases List.mem_cons.mp hx with h1 | h2
      · simp [h1]
      · exact ih x (hsp ▸ h2)
    · rename_i hc
      rcases List.mem_cons.mp hx with h1 | h2
      · subst h1
        intro hmem
        rcases List.mem_cons.mp hmem with h3 | h4
        · exact hc h3.symm
        · exact ih y (hsp ▸ List.mem_cons_self y ys) h4
      · exact ih x (hsp ▸ List.mem_cons_of_mem y h2)

theorem splitSlash_no_slash_self {x : Str} (h : '/' ∉ x) : splitSlash x = [x] := by
  induction x with
  | nil => rfl
  | cons c rest ih =>
    have hc : c ≠ '/' := fun hh => h (hh ▸ List.mem_cons_self c rest)
    have hrest : '/' ∉ rest := fun hh => h (List.mem_cons_of_mem c hh)
    rw [splitSlash_cons_eq c rest (ih hrest), if_neg hc]

theorem joinSlash_cons₂ (x y : Str) (l : List Str) :
    joinSlash (x :: y :: l) = x ++ '/' :: joinSlash (y :: l) := rfl

theorem joinSlash_single (x : Str) : joinSlash [x] = x := rfl

theorem splitSlash_joinSlash {l : List Str} (h : ∀ x ∈ l, '/' ∉ x)
    (hne : l ≠ []) : splitSlash (joinSlash l) = l := by
  induction l with
  | nil => cases hne rfl
  | cons x l' ih =>
    cases l' with
    | nil => exact splitSlash_no_slash_self (h x (List.mem_cons_self x []))
    | cons y l'' =>
      rw [joinSlash_cons₂, splitSlash_append,
        splitSlash_no_slash_self (h x (List.mem_cons_self x _)),
        ih (fun z hz => h z (List.mem_cons_of_mem x hz)) (fun hh => List.noConfusion hh)]
      rfl

theorem splitSlash_joinSlash_cons (x : Str) (xs : List Str) :
    splitSlash (joinSlash (x :: xs)) =
      splitSlash x ++ (xs.map splitSlash).flatten := by
  induction xs generalizing x with
  | nil => simp [joinSlash_single]
  | cons y ys ih =>
    rw [joinSlash_cons₂, splitSlash_append, ih y]
    simp

theorem joinSlash_cons_ex (x : Str) (xs : List Str) :
    ∃ r, joinSlash (x :: xs) = x ++ r := by
  cases xs with
  | nil => exact ⟨[], by simp [joinSlash_single]⟩
  | cons y ys => exact ⟨'/' :: joinSlash (y :: ys), rfl⟩

theorem joinSlash_append_of_ne {a b : List Str} (ha : a ≠ []) (hb : b ≠ []) :
    joinSlash (a ++ b) = joinSlash a ++ '/' :: joinSlash b := by
  induction a with
  | nil => cases ha rfl
  | cons x a' ih =>
    cases a' with
    | nil =>
      obtain ⟨y, ys, hbs⟩ := List.exists_cons_of_ne_nil hb
      subst hbs
      rw [List.singleton_append, joinSlash_cons₂, joinSlash_single]
    | cons z a'' =>
      have ih2 := ih (fun hh => List.noConfusion hh)
      simp only [List.cons_append] at ih2 ⊢
      rw [joinSlash_cons₂, ih2, joinSlash_cons₂]
      simp

/-! Lemmas about the normalisation fold. -/

theorem normCore_append (b : Bool) (acc : List Str) (x y : List Str) :
    normCore b acc (x ++ y) = normCore b (normCore b acc x) y :=
  List.foldl_append _ _ _ _

theorem normCore_cons (b : Bool) (acc : List Str) (x : Str) (s' : List Str) :
    normCore b acc (x :: s') = normCore b (normSegStep b acc x) s' := rfl

theorem normSegStep_empty (b : Bool) (acc : List Str) :
    normSegStep b acc [] = acc := by
  simp [normSegStep]

theorem normSegStep_good (acc : List Str) {seg : Str} (h : GoodSeg seg) :
    normSegStep false acc seg = seg :: acc := by
  obtain ⟨h1, h2, h3, _⟩ := h
  unfold normSegStep
  rw [if_neg, if_neg h3]
  rintro (hh | hh)
  exacts [h1 hh, h2 hh]

theorem normCore_goods {d : List Str} (h : GoodSegs d) :
    ∀ acc, normCore false acc d = d.reverse ++ acc := by
  induction d with
  | nil => intro acc; rfl
  | cons x d' ih =>
    intro acc
    have hx : GoodSeg x := h x (List.mem_cons_self x d')
    have hd' : GoodSegs d' := fun z hz => h z (List.mem_cons_of_mem x hz)
    rw [normCore_cons, normSegStep_good acc hx, ih hd']
    simp

theorem normSegStep_good_inv {acc : List Str} {seg : Str}
    (hs : '/' ∉ seg) (hacc : GoodSegs acc) :
    GoodSegs (normSegStep false acc seg) := by
  unfold normSegStep
  split
  · exact hacc
  · rename_i hne
    split
    · cases acc with
      | nil =>
        intro z hz
        simp at hz
      | cons t rest =>
        dsimp only
        by_cases hteq : t = ['.', '.']
        · rw [if_neg (not_not_intro hteq)]
          simp only [Bool.false_eq_true, if_false]
          exact hacc
        · rw [if_pos hteq]
          exact fun z hz => hacc z (List.mem_cons_of_mem t hz)
    · rename_i hdd
      intro z hz
      rcases List.mem_cons.mp hz with h1 | h2
      · subst h1
        push_neg at hne
        exact ⟨hne.1, hne.2, hdd, hs⟩
      · exact hacc z h2

theorem normCore_good_inv {segs : List Str} (hs : ∀ x ∈ segs, '/' ∉ x) :
    ∀ {acc : List Str}, GoodSegs acc → GoodSegs (normCore false acc segs) := by
  induction segs with
  | nil => intro acc h; exact h
  | cons x s' ih =>
    intro acc h
    rw [normCore_cons]
    exact ih (fun z hz => hs z (List.mem_cons_of_mem x hz))
      (normSegStep_good_inv (hs x (List.mem_cons_self x s')) h)

theorem goodSegs_nil : GoodSegs [] := fun z hz => absurd hz (List.not_mem_nil z)

theorem goodSegs_reverse {l : List Str} (h : GoodSegs l) : GoodSegs l.reverse :=
  fun z hz => h z (List.mem_reverse.mp hz)

theorem normalizeSegs_false_good (s : Str) :
    GoodSegs (normalizeSegs false (splitSlash s)) :=
  goodSegs_reverse (normCore_good_inv (mem_splitSlash_no_slash s) goodSegs_nil)

/-! Lemmas about `posixResolve`, `posixJoin` and canonical absolute paths. -/

theorem splitSlash_slash_cons (w : Str) :
    splitSlash ('/' :: w) = [] :: splitSlash w := by
  obtain ⟨x, xs, hw⟩ := List.exists_cons_of_ne_nil (splitSlash_ne_nil w)
  rw [splitSlash_cons_eq '/' w hw, if_pos rfl, hw]

theorem joinSlash_eq_nil_good {W : List Str} (h : GoodSegs W)
    (hn : joinSlash W = []) : W = [] := by
  cases W with
  | nil => rfl
  | cons w ws =>
    obtain ⟨r, hr⟩ := joinSlash_cons_ex w ws
    rw [hr] at hn
    exact absurd (List.append_eq_nil.mp hn).1 (h w (List.mem_cons_self w ws)).1

theorem no_slash_flatten_map (l : List Str) :
    ∀ x ∈ (l.map splitSlash).flatten, '/' ∉ x := by
  intro x hx
  rw [List.mem_flatten] at hx
  obtain ⟨ys, hys, hxys⟩ := hx
  rw [List.mem_map] at hys
  obtain ⟨f, _, rfl⟩ := hys
  exact mem_splitSlash_no_slash f x hxys

theorem normCore_empties (acc : List Str) :
    ∀ {E : List Str}, (∀ x ∈ E, x = []) → normCore false acc E = acc := by
  intro E
  induction E generalizing acc with
  | nil => intro _; rfl
  | cons x E' ih =>
    intro hE
    rw [normCore_cons, hE x (List.mem_cons_self x E'), normSegStep_empty]
    exact ih acc (fun z hz => hE z (List.mem_cons_of_mem x hz))

theorem normCore_splitSlash_renderAbs {bs : List Str} (h : GoodSegs bs)
    (acc : List Str) :
    normCore false acc (splitSlash (renderAbs bs)) = bs.reverse ++ acc := by
  rw [renderAbs, splitSlash_slash_cons, normCore_cons, normSegStep_empty]
  cases hbs : bs with
  | nil => rfl
  | cons x bs' =>
    have h2 : GoodSegs (x :: bs') := hbs ▸ h
    rw [splitSlash_joinSlash (fun z hz => (h2 z hz).2.2.2)
      (fun hh => List.noConfusion hh)]
    exact normCore_goods h2 acc

theorem resolveAccum_abs_single {x : Str} (hx : x.head? = some '/')
    (cwd : Str) : resolveAccum [x, cwd] = (x ++ ['/'], true) := by
  have hne : x ≠ [] := by
    intro hh
    subst hh
    exact Option.noConfusion hx
  simp [resolveAccum, List.foldl, hne, hx]

theorem posixResolve_renderAbs_of_snd {cwd : Str} {args : List Str}
    (h : (resolveAccum (args.reverse ++ [cwd])).2 = true) :
    posixResolve cwd args =
      renderAbs (normalizeSegs false
        (splitSlash (resolveAccum (args.reverse ++ [cwd])).1)) := by
  unfold posixResolve normalizeString
  dsimp only
  rw [h]
  simp only [Bool.not_true, if_true]
  split
  · rename_i hnil
    rw [renderAbs, hnil]
  · rfl

theorem posixResolve_abs_string {t : Str} (ht : t.head? = some '/')
    (cwd : Str) :
    posixResolve cwd [t] =
      renderAbs (normalizeSegs false (splitSlash (t ++ ['/']))) := by
  have hacc := resolveAccum_abs_single ht cwd
  have hl : [t].reverse ++ [cwd] = [t, cwd] := rfl
  have hsnd : (resolveAccum ([t].reverse ++ [cwd])).2 = true := by
    rw [hl, hacc]
  rw [posixResolve_renderAbs_of_snd hsnd, hl, hacc]

theorem posixResolve_renderAbs {bs : List Str} (h : GoodSegs bs) (cwd : Str) :
    posixResolve cwd [renderAbs bs] = renderAbs bs := by
  rw [posixResolve_abs_string (t := renderAbs bs) rfl cwd]
  rw [show renderAbs bs ++ ['/'] = renderAbs bs ++ '/' :: [] from rfl,
    splitSlash_append, normalizeSegs, normCore_append,
    normCore_splitSlash_renderAbs h []]
  rw [show splitSlash [] = [[]] from rfl,
    normCore_empties _ (by intro x hx; simpa using hx)]
  simp [renderAbs]

theorem posixJoin_cons_abs (bs : List Str) (segs : List Str) :
    posixJoin (renderAbs bs :: segs) =
      posixNormalize
        (joinSlash (renderAbs bs :: segs.filter (fun a => !a.isEmpty))) := by
  unfold posixJoin
  dsimp only
  rw [List.filter_cons, if_pos (show (!(renderAbs bs).isEmpty) = true from rfl)]
  rw [if_neg (show ¬(renderAbs bs :: segs.filter (fun a => !a.isEmpty) = []) from
    fun hh => List.noConfusion hh)]

theorem resolve_join_renderAbs {bs : List Str} (h : GoodSegs bs)
    (cwd : Str) (segs : List Str) :
    posixResolve cwd [posixJoin (renderAbs bs :: segs)] =
      renderAbs ((normCore false bs.reverse
        (((segs.filter (fun a => !a.isEmpty)).map splitSlash).flatten)).reverse) := by
  have hWgood : GoodSegs ((normCore false bs.reverse
      (((segs.filter (fun a => !a.isEmpty)).map splitSlash).flatten)).reverse) :=
    goodSegs_reverse (normCore_good_inv (no_slash_flatten_map _) (goodSegs_reverse h))
  have hnorm : normalizeSegs false
      (splitSlash (joinSlash (renderAbs bs :: segs.filter (fun a => !a.isEmpty)))) =
      (normCore false bs.reverse
        (((segs.filter (fun a => !a.isEmpty)).map splitSlash).flatten)).reverse := by
    rw [splitSlash_joinSlash_cons, normalizeSegs, normCore_append,
      normCore_splitSlash_renderAbs h [], List.append_nil]
  obtain ⟨r, hr⟩ := joinSlash_cons_ex (renderAbs bs) (segs.filter (fun a => !a.isEmpty))
  have hJne : joinSlash (renderAbs bs :: segs.filter (fun a => !a.isEmpty)) ≠ [] := by
    rw [hr, renderAbs]
    simp
  have hJhead : (joinSlash (renderAbs bs :: segs.filter (fun a => !a.isEmpty))).head? =
      some '/' := by
    rw [hr, renderAbs]
    rfl
  rw [posixJoin_cons_abs]
  unfold posixNormalize
  dsimp only
  rw [if_neg hJne, hJhead]
  rw [show (decide ((some '/' : Option Char) = some '/')) = true from rfl]
  simp only [Bool.not_true]
  unfold normalizeString
  rw [hnorm]
  simp only [eq_self_iff_true, if_true]
  set W := (normCore false bs.reverse
    (((segs.filter (fun a => !a.isEmpty)).map splitSlash).flatten)).reverse with hWdef
  by_cases hWnil : joinSlash W = []
  · have hW0 : W = [] := joinSlash_eq_nil_good hWgood hWnil
    rw [if_pos hWnil, hW0]
    rw [posixResolve_abs_string (t := ['/']) rfl]
    rw [show splitSlash (['/'] ++ ['/']) = [[], [], []] from rfl]
    rw [normalizeSegs, normCore_empties _ (by decide)]
    rfl
  · rw [if_neg hWnil]
    have hWne : W ≠ [] := by
      intro hh
      rw [hh] at hWnil
      exact hWnil rfl
    have hsplitn : splitSlash (joinSlash W) = W :=
      splitSlash_joinSlash (fun z hz => (hWgood z hz).2.2.2) hWne
    split
    · -- trailing slash present
      rw [posixResolve_abs_string (t := '/' :: (joinSlash W ++ ['/'])) rfl]
      rw [show ('/' :: (joinSlash W ++ ['/'])) ++ ['/'] =
        '/' :: (joinSlash W ++ '/' :: ('/' :: [])) from by simp]
      rw [splitSlash_slash_cons, splitSlash_append, hsplitn]
      rw [show splitSlash ('/' :: []) = [[], []] from rfl]
      rw [normalizeSegs, normCore_cons, normSegStep_empty, normCore_append,
        normCore_goods hWgood [],
        normCore_empties _ (by intro x hx; simpa using hx)]
      simp
    · -- no trailing slash
      rw [posixResolve_abs_string (t := '/' :: joinSlash W) rfl]
      rw [show ('/' :: joinSlash W) ++ ['/'] = '/' :: (joinSlash W ++ '/' :: []) from by simp]
      rw [splitSlash_slash_cons, splitSlash_append, hsplitn]
      rw [show splitSlash ([] : Str) = [[]] from rfl]
      rw [normalizeSegs, normCore_cons, normSegStep_empty, normCore_append,
        normCore_goods hWgood [],
        normCore_empties _ (by intro x hx; simpa using hx)]
      simp

/-! Lemmas about the boundary check and `posixRelative`. -/

theorem startsWithStr_iff {s p : Str} :
    startsWithStr s p = true ↔ ∃ r, s = p ++ r := by
  induction p generalizing s with
  | nil =>
    simp only [startsWithStr, List.nil_append]
    constructor
    · intro _
      exact ⟨s, rfl⟩
    · intro _
      trivial
  | cons c p' ih =>
    cases s with
    | nil =>
      simp only [startsWithStr]
      constructor
      · intro hh
        exact Bool.noConfusion hh
      · rintro ⟨r, hr⟩
        exact List.noConfusion hr
    | cons d s' =>
      rw [show startsWithStr (d :: s') (c :: p') =
        (decide (d = c) && startsWithStr s' p') from rfl]
      rw [Bool.and_eq_true, decide_eq_true_eq, ih]
      constructor
      · rintro ⟨rfl, r, rfl⟩
        exact ⟨r, rfl⟩
      · rintro ⟨r, heq⟩
        injection heq with h1 h2
        exact ⟨h1, r, h2⟩

theorem joinSlash_inj {a b : List Str} (ha : GoodSegs a) (hb : GoodSegs b)
    (h : joinSlash a = joinSlash b) : a = b := by
  cases a with
  | nil =>
    cases b with
    | nil => rfl
    | cons y ys =>
      exact absurd (joinSlash_eq_nil_good hb h.symm) (fun hh => List.noConfusion hh)
  | cons x xs =>
    cases b with
    | nil =>
      exact absurd (joinSlash_eq_nil_good ha h) (fun hh => List.noConfusion hh)
    | cons y ys =>
      have h1 := splitSlash_joinSlash (fun z hz => (ha z hz).2.2.2)
        (fun hh => List.noConfusion hh)
      have h2 := splitSlash_joinSlash (fun z hz => (hb z hz).2.2.2)
        (fun hh => List.noConfusion hh)
      rw [← h1, ← h2, h]

theorem validate_check_elim {bs W : List Str} (hbs : GoodSegs bs)
    (hW : GoodSegs W)
    (h : validatePathWithinBase (renderAbs W) (renderAbs bs) = true) :
    ∃ d, W = bs ++ d ∧ (bs = [] → d = []) := by
  unfold validatePathWithinBase at h
  rcases Bool.or_eq_true_iff.mp h with h | h
  · obtain ⟨r, hr⟩ := startsWithStr_iff.mp h
    have h2 : joinSlash W = joinSlash bs ++ '/' :: r := by
      have hr2 : ('/' : Char) :: joinSlash W =
          '/' :: (joinSlash bs ++ '/' :: r) := by
        rw [show ('/' :: (joinSlash bs ++ '/' :: r) : Str) =
          (('/' :: joinSlash bs) ++ ['/']) ++ r from by simp]
        exact hr
      injection hr2
    cases bs with
    | nil =>
      exfalso
      rw [joinSlash] at h2
      cases hWc : W with
      | nil =>
        rw [hWc, joinSlash] at h2
        exact List.noConfusion h2
      | cons w ws =>
        obtain ⟨r2, hr2⟩ := joinSlash_cons_ex w ws
        rw [hWc, hr2] at h2
        obtain ⟨hw1, _, _, hw4⟩ := hW w (hWc ▸ List.mem_cons_self w ws)
        cases w with
        | nil => exact hw1 rfl
        | cons wc wrest =>
          rw [List.cons_append, List.nil_append] at h2
          injection h2 with hc _
          exact hw4 (hc ▸ List.mem_cons_self wc wrest)
    | cons b bs' =>
      have hWne : W ≠ [] := by
        intro hh
        rw [hh, joinSlash] at h2
        exact absurd h2.symm (by simp)
      have hsp := splitSlash_joinSlash (fun z hz => (hW z hz).2.2.2) hWne
      rw [h2, splitSlash_append,
        splitSlash_joinSlash (fun z hz => (hbs z hz).2.2.2)
          (fun hh => List.noConfusion hh)] at hsp
      exact ⟨splitSlash r, hsp.symm, fun hh => absurd hh (fun hh2 => List.noConfusion hh2)⟩
  · have h2 : renderAbs W = renderAbs bs := of_decide_eq_true h
    have h3 : joinSlash W = joinSlash bs := by
      rw [renderAbs, renderAbs] at h2
      injection h2
    have h4 : W = bs := joinSlash_inj hW hbs h3
    exact ⟨[], by simp [h4], fun _ => rfl⟩

theorem absSegs_renderAbs {W : List Str} (hW : GoodSegs W) :
    absSegs (renderAbs W) = W := by
  unfold absSegs
  rw [renderAbs, splitSlash_slash_cons, List.tail_cons]
  cases hWc : W with
  | nil => rfl
  | cons w ws =>
    rw [splitSlash_joinSlash (fun z hz => (hW z (hWc ▸ hz)).2.2.2)
      (fun hh => List.noConfusion hh)]
    rw [List.filter_eq_self.mpr]
    intro a ha
    have h1 := (hW a (hWc ▸ ha)).1
    simpa using h1

theorem commonPrefixLen_append (bs d : List Str) :
    commonPrefixLen bs (bs ++ d) = bs.length := by
  induction bs with
  | nil => cases d <;> rfl
  | cons x bs' ih =>
    simp [commonPrefixLen, ih]

theorem posixRelative_renderAbs {bs d : List Str} (hbs : GoodSegs bs)
    (hbd : GoodSegs (bs ++ d)) (cwd : Str) :
    posixRelative cwd (renderAbs bs) (renderAbs (bs ++ d)) =
      if d = [] then [] else joinSlash d := by
  unfold posixRelative
  dsimp only
  rw [posixResolve_renderAbs hbs, posixResolve_renderAbs hbd]
  by_cases hdn : d = []
  · subst hdn
    rw [List.append_nil, if_pos rfl, if_pos rfl]
  · rw [if_neg hdn, if_neg]
    · rw [absSegs_renderAbs hbs, absSegs_renderAbs hbd, commonPrefixLen_append,
        Nat.sub_self, List.replicate_zero, List.nil_append, List.drop_left]
    · intro hh
      have h3 : joinSlash bs = joinSlash (bs ++ d) := by
        rw [renderAbs, renderAbs] at hh
        injection hh
      have h4 : bs = bs ++ d := joinSlash_inj hbs hbd h3
      have h5 : bs.length = bs.length + d.length := by
        conv_lhs => rw [h4]
        rw [List.length_append]
      have h6 : d.length = 0 := by omega
      exact hdn (List.length_eq_zero.mp h6)

theorem resolveAccum_snd_true {cwd : Str} (hcwd : cwd.head? = some '/')
    (l : List Str) : (resolveAccum (l ++ [cwd])).2 = true := by
  have hne : cwd ≠ [] := by
    intro hh
    subst hh
    exact Option.noConfusion hcwd
  unfold resolveAccum
  rw [List.foldl_append, List.foldl_cons, List.foldl_nil]
  rcases hst : List.foldl
      (fun st p => if st.2 = true then st else if p = [] then st
        else (p ++ '/' :: st.1, decide (p.head? = some '/')))
      ([], false) l with ⟨r2, b⟩
  cases b
  · dsimp only
    rw [if_neg (by simp), if_neg hne]
    simp [hcwd]
  · simp

theorem joinSlash_isEmpty_false {d : List Str} (hd : GoodSegs d)
    (hne : d ≠ []) : (joinSlash d).isEmpty = false := by
  cases d with
  | nil => cases hne rfl
  | cons x d' =>
    obtain ⟨c, x', hx⟩ := List.exists_cons_of_ne_nil (hd x (List.mem_cons_self x d')).1
    obtain ⟨r, hr⟩ := joinSlash_cons_ex x d'
    rw [hr, hx]
    rfl

theorem baseSegs_good (cwd basePath : Str) : GoodSegs (baseSegs cwd basePath) :=
  normalizeSegs_false_good _

theorem candSegs_good (cwd basePath : Str) (segs : List Str) :
    GoodSegs (candSegs cwd basePath segs) :=
  goodSegs_reverse (normCore_good_inv (no_slash_flatten_map _)
    (goodSegs_reverse (baseSegs_good cwd basePath)))

theorem resolveBase_eq {cwd : Str} (hcwd : cwd.head? = some '/')
    (basePath : Str) :
    SafePath.resolveBase cwd basePath = renderAbs (baseSegs cwd basePath) :=
  posixResolve_renderAbs_of_snd (resolveAccum_snd_true hcwd _)

theorem resolveCandidate_eq {cwd : Str} (hcwd : cwd.head? = some '/')
    (basePath : Str) (segs : List Str) :
    SafePath.resolveCandidate cwd basePath segs =
      renderAbs (candSegs cwd basePath segs) := by
  unfold SafePath.resolveCandidate candSegs
  rw [resolveBase_eq hcwd]
  exact resolve_join_renderAbs (baseSegs_good cwd basePath) cwd segs

theorem baseSegs_renderAbs {bs : List Str} (h : GoodSegs bs) (cwd : Str) :
    baseSegs cwd (renderAbs bs) = bs := by
  unfold baseSegs
  rw [show ([renderAbs bs].reverse ++ [cwd]) = [renderAbs bs, cwd] from rfl,
    resolveAccum_abs_single (x := renderAbs bs) rfl cwd]
  dsimp only
  rw [show renderAbs bs ++ ['/'] = renderAbs bs ++ '/' :: [] from rfl,
    splitSlash_append, normalizeSegs, normCore_append,
    normCore_splitSlash_renderAbs h [], List.append_nil,
    show splitSlash ([] : Str) = [[]] from rfl,
    normCore_empties _ (by decide)]
  simp

theorem make_ok_elim {cwd basePath : Str} {segs : List Str} {p : SafePath}
    (hcwd : cwd.head? = some '/')
    (h : SafePath.make cwd basePath segs = .ok p) :
    p.basePath = renderAbs (baseSegs cwd basePath) ∧
      p.resolvedPath = renderAbs (candSegs cwd basePath segs) ∧
      ∃ d, candSegs cwd basePath segs = baseSegs cwd basePath ++ d ∧
        (baseSegs cwd basePath = [] → d = []) := by
  unfold SafePath.make at h
  dsimp only at h
  rw [resolveBase_eq hcwd, resolveCandidate_eq hcwd] at h
  split at h
  · rename_i hcheck
    injection h with h2
    subst h2
    obtain ⟨d, hd1, hd2⟩ := validate_check_elim (baseSegs_good cwd basePath)
      (candSegs_good cwd basePath segs) hcheck
    exact ⟨rfl, rfl, d, hd1, hd2⟩
  · exact Except.noConfusion h

/-! Claim C3 and C7: the shared range validator. -/

/-- C3 counterexample: `validateNumberInRange` succeeds on the number `5/2`
with bounds `[1, 25]` and returns `5/2`, which is not an integer — the
claim's "the returned result is an integer" fails for number inputs. -/
theorem C3_cex_nonintegerResult :
    validateNumberInRange (.num (.fin (mkRat 5 2))) 1 25 ("day".data) =
        .ok (mkRat 5 2) ∧
      (mkRat 5 2).den ≠ 1 := by
  constructor
  · decide
  · decide

/-- C3 (amended): whenever `validateNumberInRange(value, lo, hi, kind)`
succeeds, the result lies in `[lo, hi]`; string inputs are coerced by base-10
`parseInt`, so for them the result is an integer; number inputs are returned
unchanged (hence integral exactly when the input is).  The embedding is a
pure function, so success carries no side effects. -/
theorem C3_validateNumberInRange_success (v : JSValue) (lo hi : ℚ) (k : Str)
    (q : ℚ) (h : validateNumberInRange v lo hi k = .ok q) :
    lo ≤ q ∧ q ≤ hi ∧ (∀ w, v = .str w → q.den = 1) ∧
      (∀ n, v = .num n → n = .fin q) := by
  cases v with
  | null => exact absurd h (by simp [validateNumberInRange])
  | undef => exact absurd h (by simp [validateNumberInRange])
  | str w =>
    simp only [validateNumberInRange, jsToNumber] at h
    split at h
    · exact Except.noConfusion h
    · exact Except.noConfusion h
    · exact Except.noConfusion h
    · rename_i q' heq
      split at h
      · exact Except.noConfusion h
      · rename_i hrange
        injection h with h2
        subst h2
        push_neg at hrange
        refine ⟨hrange.1, hrange.2, ?_, ?_⟩
        · intro w' hw
          injection hw with hw2
          subst hw2
          exact parseInt10_den heq
        · intro n hn
          exact JSValue.noConfusion hn
  | num m =>
    simp only [validateNumberInRange, jsToNumber] at h
    split at h
    · exact Except.noConfusion h
    · exact Except.noConfusion h
    · exact Except.noConfusion h
    · rename_i q'
      split at h
      · exact Except.noConfusion h
      · rename_i hrange
        injection h with h2
        subst h2
        push_neg at hrange
        refine ⟨hrange.1, hrange.2, ?_, ?_⟩
        · intro w' hw
          exact JSValue.noConfusion hw
        · intro n hn
          injection hn with hn2
          exact hn2.symm

/-- C3 witness: instantiating the amended statement at the string `"15"`
with bounds `[1, 25]`. -/
theorem C3_witness :
    (1 : ℚ) ≤ 15 ∧ (15 : ℚ) ≤ 25 ∧
      (∀ w, JSValue.str ("15".data) = .str w → (15 : ℚ).den = 1) ∧
      (∀ n, JSValue.str ("15".data) = .num n → n = .fin 15) :=
  C3_validateNumberInRange_success (.str ("15".data)) 1 25 ("day".data) 15
    (by decide)

/-- C7: for finite bounds `lo ≤ hi`, every `null`, absent, non-numeric or
non-finite input makes `validateNumberInRange` fail with the
not-a-valid-number error tagged with the kind and the offending raw value;
it never returns a number on such inputs. -/
theorem C7_validateNumberInRange_rejects (lo hi : ℚ) (k : Str) (v : JSValue)
    (_hb : lo ≤ hi) (h : badNumericInput v) :
    validateNumberInRange v lo hi k = .error (.notANumber k v) := by
  rcases h with h | h | ⟨w, hv, hw⟩ | ⟨n, hv, hn⟩
  · subst h; rfl
  · subst h; rfl
  · subst hv
    simp only [validateNumberInRange, hw]
  · subst hv
    cases n with
    | nan => rfl
    | posInf => rfl
    | negInf => rfl
    | fin q => exact absurd rfl (hn q)

/-- C7 witness: instantiating at `null` with bounds `[1, 25]`. -/
theorem C7_witness :
    validateNumberInRange .null 1 25 ("day".data) =
      .error (.notANumber ("day".data) .null) :=
  C7_validateNumberInRange_rejects 1 25 ("day".data) .null (by norm_num)
    (Or.inl rfl)

/-! Claims C4 and C5: the Year value object. -/

theorem year_fourDigit_aux :
    ∀ k, k < 85 →
      Year.make (.str (decRepr (2015 + k))) = .ok ⟨((2015 + k : ℕ) : ℚ)⟩ ∧
        Year.toFolderName ⟨((2015 + k : ℕ) : ℚ)⟩ = decRepr (2015 + k) := by
  decide

/-- C4: for every integer `y` in `[2015, 2099]` given as its exact 4-digit
string, the `Year` constructor succeeds and `toFolderName()` returns that
same 4-digit decimal string. -/
theorem C4_Year_fourDigit_roundtrip (y : ℕ) (h1 : 2015 ≤ y) (h2 : y ≤ 2099) :
    Year.make (.str (decRepr y)) = .ok ⟨(y : ℚ)⟩ ∧
      Year.toFolderName ⟨(y : ℚ)⟩ = decRepr y := by
  have h3 : y - 2015 < 85 := by omega
  have h4 := year_fourDigit_aux (y - 2015) h3
  have h5 : 2015 + (y - 2015) = y := by omega
  rw [h5] at h4
  exact h4

/-- C4 witness: the year 2024. -/
theorem C4_witness :
    Year.make (.str (decRepr 2024)) = .ok ⟨((2024 : ℕ) : ℚ)⟩ ∧
      Year.toFolderName ⟨((2024 : ℕ) : ℚ)⟩ = decRepr 2024 :=
  C4_Year_fourDigit_roundtrip 2024 (by norm_num) (by norm_num)

/-- C5: every input whose numeric coercion is outside `[2015, 2099]`, or
whose trimmed string form is not exactly four decimal digits, or whose
string form contains `/`, `\` or the substring `..`, makes the `Year`
constructor throw a validation error, so no instance is produced. -/
theorem C5_Year_rejects (v : JSValue)
    (h : outsideYearRange v ∨ isFourDigits (jsTrim (jsString v)) = false ∨
      hasTraversalChars (jsString v) = true) :
    ∃ e, Year.make v = .error e := by
  apply except_error_of_not_ok
  intro y hy
  unfold Year.make at hy
  split at hy
  · exact Except.noConfusion hy
  · rename_i year hval
    split at hy
    · exact Except.noConfusion hy
    · rename_i hfour
      split at hy
      · exact Except.noConfusion hy
      · rename_i u htrav
        obtain ⟨hco, hlo, hhi⟩ := validateNumberInRange_ok_elim hval
        have hfour2 : isFourDigits (jsTrim (jsString v)) = true := by
          by_contra hh
          exact hfour (by simpa using hh)
        cases u
        obtain ⟨hs1, hs2, hs3⟩ := validateNoPathTraversal_ok_elim htrav
        rcases h with h | h | h
        · unfold outsideYearRange at h
          rw [hco] at h
          rcases h with h | h
          · exact absurd hlo (by simpa using h)
          · exact absurd hhi (by simpa using h)
        · rw [hfour2] at h
          exact Bool.noConfusion h
        · unfold hasTraversalChars at h
          rcases Bool.or_eq_true_iff.mp h with h | h
          · rcases Bool.or_eq_true_iff.mp h with h | h
            · have := mem_jsTrim (c := '/') (by decide)
                (containsChar_iff.mp h)
              rw [← containsChar_iff] at this
              rw [hs1] at this
              exact Bool.noConfusion this
            · have := mem_jsTrim (c := '\\') (by decide)
                (containsChar_iff.mp h)
              rw [← containsChar_iff] at this
              rw [hs2] at this
              exact Bool.noConfusion this
          · have := hasDotDot_jsTrim h
            rw [hs3] at this
            exact Bool.noConfusion this

/-- C5 witness: the number 2100 is outside the range. -/
theorem C5_witness : ∃ e, Year.make (.num (.fin 2100)) = .error e :=
  C5_Year_rejects (.num (.fin 2100))
    (Or.inl (show (2100 : ℚ) < 2015 ∨ (2099 : ℚ) < 2100 from Or.inr (by norm_num)))

/-! Claim C6: the Day value object. -/

theorem day_folder_aux :
    ∀ k, k < 25 →
      Day.make (.num (.fin ((k + 1 : ℕ) : ℚ))) = .ok ⟨((k + 1 : ℕ) : ℚ)⟩ ∧
        Day.toFolderName ⟨((k + 1 : ℕ) : ℚ)⟩ = specDayFolder (k + 1) := by
  decide

/-- C6: for every integer `d` in `[1, 25]`, the `Day` constructor succeeds
and `toFolderName()` is `"day"` followed by `d` zero-padded to two digits
(so `day01`, ..., `day25`). -/
theorem C6_Day_folderName (d : ℕ) (h1 : 1 ≤ d) (h2 : d ≤ 25) :
    Day.make (.num (.fin (d : ℚ))) = .ok ⟨(d : ℚ)⟩ ∧
      Day.toFolderName ⟨(d : ℚ)⟩ = specDayFolder d := by
  have h3 : d - 1 < 25 := by omega
  have h4 := day_folder_aux (d - 1) h3
  have h5 : d - 1 + 1 = d := by omega
  rw [h5] at h4
  exact h4

/-- C6 witness: the examples `Day(1) ↦ day01` and `Day(15) ↦ day15` from the
claim. -/
theorem C6_witness :
    (Day.make (.num (.fin ((1 : ℕ) : ℚ))) = .ok ⟨((1 : ℕ) : ℚ)⟩ ∧
      Day.toFolderName ⟨((1 : ℕ) : ℚ)⟩ = specDayFolder 1) ∧
    (Day.make (.num (.fin ((15 : ℕ) : ℚ))) = .ok ⟨((15 : ℕ) : ℚ)⟩ ∧
      Day.toFolderName ⟨((15 : ℕ) : ℚ)⟩ = specDayFolder 15) :=
  ⟨C6_Day_folderName 1 (by norm_num) (by norm_num),
   C6_Day_folderName 15 (by norm_num) (by norm_num)⟩

/-! Claim C8: the Language value object. -/

/-- C8 counterexample: the 51-character string `"a"` followed by 50 spaces
exceeds 50 characters, yet the `Language` constructor succeeds (the length
cap is checked on the trimmed value), contradicting the claim as stated. -/
theorem C8_cex_untrimmed_length :
    ('a' :: List.replicate 50 ' ').length = 51 ∧
      Language.make (.str ('a' :: List.replicate 50 ' ')) = .ok ⟨['a'], ['a']⟩ := by
  constructor
  · decide
  · decide

/-- C8 (amended): for every string that contains `/` or `\`, or starts with
`.` or `-`, or whose trimmed form exceeds 50 characters, the `Language`
constructor throws a validation error and no instance is produced. -/
theorem C8_Language_rejects (s : Str)
    (h : s.contains '/' = true ∨ s.contains '\\' = true ∨
      s.head? = some '.' ∨ s.head? = some '-' ∨ 50 < (jsTrim s).length) :
    ∃ e, Language.make (.str s) = .error e := by
  apply except_error_of_not_ok
  intro l hl
  unfold Language.make at hl
  split at hl
  · exact Except.noConfusion hl
  · rename_i trimmed heq
    unfold validateLanguageFormat at heq
    dsimp only at heq
    split at heq
    · exact Except.noConfusion heq
    · rename_i hne
      split at heq
      · exact Except.noConfusion heq
      · rename_i hall
        split at heq
        · exact Except.noConfusion heq
        · rename_i hhead
          split at heq
          · exact Except.noConfusion heq
          · rename_i hlen
            have hall2 : (jsTrim s).all isLangChar = true := by
              by_contra hh
              exact hall (by simpa using hh)
            rcases h with h | h | h | h | h
            · have hmem := mem_jsTrim (c := '/') (by decide) (containsChar_iff.mp h)
              have := List.all_eq_true.mp hall2 _ hmem
              exact Bool.noConfusion this
            · have hmem := mem_jsTrim (c := '\\') (by decide) (containsChar_iff.mp h)
              have := List.all_eq_true.mp hall2 _ hmem
              exact Bool.noConfusion this
            · cases s with
              | nil => exact Option.noConfusion h
              | cons c t =>
                injection h with h2
                subst h2
                rw [jsTrim_cons_of_not_ws (by decide)] at hhead
                exact hhead (Or.inl rfl)
            · cases s with
              | nil => exact Option.noConfusion h
              | cons c t =>
                injection h with h2
                subst h2
                rw [jsTrim_cons_of_not_ws (by decide)] at hhead
                exact hhead (Or.inr rfl)
            · exact hlen h

/-- C8 witness: a string containing `/` is rejected. -/
theorem C8_witness : ∃ e, Language.make (.str ("a/b".data)) = .error e :=
  C8_Language_rejects ("a/b".data) (Or.inl (by decide))

/-! Claim C9: lenient Day parsing. -/

/-- C9: for every string whose leading base-10 integer prefix (as `parseInt`
reads it) is an integer `d` in `[1, 25]` and whose trimmed form has no `/`,
`\` or `..`, the `Day` constructor succeeds, `Day(d)` itself succeeds, and
the two instances are `equals`-equal. -/
theorem C9_Day_lenientTrailing (s : Str) (d : ℕ)
    (hp : parseInt10 s = .fin (d : ℚ)) (h1 : 1 ≤ d) (h2 : d ≤ 25)
    (ht : hasTraversalChars (jsTrim s) = false) :
    Day.make (.str s) = .ok ⟨(d : ℚ)⟩ ∧
      Day.make (.num (.fin (d : ℚ))) = .ok ⟨(d : ℚ)⟩ ∧
      Day.equals ⟨(d : ℚ)⟩ ⟨(d : ℚ)⟩ = true := by
  have hcast1 : ¬ ((d : ℚ) < 1) := by
    rw [not_lt]
    exact_mod_cast h1
  have hcast2 : ¬ ((25 : ℚ) < (d : ℚ)) := by
    rw [not_lt]
    exact_mod_cast h2
  simp only [hasTraversalChars, Bool.or_eq_false_iff] at ht
  refine ⟨?_, ?_, by simp [Day.equals]⟩
  · unfold Day.make dayValidateNumberInRange
    dsimp only
    rw [hp]
    rw [if_neg (by intro hh; exact JSNum.noConfusion hh)]
    rw [if_neg (by
      rintro (hh | hh)
      · exact hcast1 (by simpa [jnumLtQ] using hh)
      · exact hcast2 (by simpa [jnumGtQ] using hh))]
    unfold validateNoPathTraversal
    dsimp only
    rw [if_neg (by
      rintro (hh | hh | hh)
      · rw [show jsString (.str s) = s from rfl] at hh
        rw [ht.1.1] at hh
        exact Bool.noConfusion hh
      · rw [show jsString (.str s) = s from rfl] at hh
        rw [ht.1.2] at hh
        exact Bool.noConfusion hh
      · rw [show jsString (.str s) = s from rfl] at hh
        rw [ht.2] at hh
        exact Bool.noConfusion hh)]
  · have h3 : d - 1 < 25 := by omega
    have h4 := (day_folder_aux (d - 1) h3).1
    have h5 : d - 1 + 1 = d := by omega
    rw [h5] at h4
    exact h4

/-- C9 witness: the example `Day("15abc")` from the claim. -/
theorem C9_witness :
    Day.make (.str ("15abc".data)) = .ok ⟨((15 : ℕ) : ℚ)⟩ ∧
      Day.make (.num (.fin ((15 : ℕ) : ℚ))) = .ok ⟨((15 : ℕ) : ℚ)⟩ ∧
      Day.equals ⟨((15 : ℕ) : ℚ)⟩ ⟨((15 : ℕ) : ℚ)⟩ = true :=
  C9_Day_lenientTrailing ("15abc".data) 15 (by decide) (by norm_num)
    (by norm_num) (by decide)

/-! Claims C1, C2 and C10: the SafePath value object. -/

/-- C1: every successfully constructed `SafePath` — from the constructor or
from `append` — satisfies the boundary invariant (resolved target equals the
resolved base or extends it past a separator), and whenever the resolved
candidate fails that check the constructor throws the path-traversal error,
so no instance is produced. -/
theorem C1_SafePath_boundary (cwd base : Str) (segs : List Str) :
    (∀ p : SafePath, SafePath.make cwd base segs = .ok p →
      validatePathWithinBase p.resolvedPath p.basePath = true) ∧
    (∀ (p : SafePath) (t : List Str) (q : SafePath),
      SafePath.append cwd p t = .ok q →
      validatePathWithinBase q.resolvedPath q.basePath = true) ∧
    (validatePathWithinBase (SafePath.resolveCandidate cwd base segs)
        (SafePath.resolveBase cwd base) = false →
      SafePath.make cwd base segs = .error
        (.pathTraversal (SafePath.resolveCandidate cwd base segs)
          (SafePath.resolveBase cwd base))) := by
  refine ⟨?_, ?_, ?_⟩
  · intro p hp
    unfold SafePath.make at hp
    dsimp only at hp
    split at hp
    · rename_i hcheck
      injection hp with h2
      subst h2
      exact hcheck
    · exact Except.noConfusion hp
  · intro p t q hq
    unfold SafePath.append SafePath.make at hq
    dsimp only at hq
    split at hq
    · rename_i hcheck
      injection hq with h2
      subst h2
      exact hcheck
    · exact Except.noConfusion hq
  · intro hfalse
    unfold SafePath.make
    dsimp only
    rw [if_neg (by rw [hfalse]; simp)]

/-- C1 witness: the constructed path `/base/2024` under base `/base`
satisfies the boundary check. -/
theorem C1_witness :
    validatePathWithinBase ("/base/2024".data) ("/base".data) = true :=
  (C1_SafePath_boundary ("/".data) ("/base".data) [("2024".data)]).1
    ⟨"/base/2024".data, "/base".data⟩ rfl

/-- C10: `append` never changes the base directory — the appended instance's
`getBasePath()` equals the original's — and the original instance is
unchanged: its fields still equal exactly what its own construction produced
(the embedding is pure, so `append` returns a fresh value and cannot mutate
`p`). -/
theorem C10_append_preserves_base (cwd base : Str) (s t : List Str)
    (p q : SafePath) (hcwd : cwd.head? = some '/')
    (h1 : SafePath.make cwd base s = .ok p)
    (h2 : SafePath.append cwd p t = .ok q) :
    q.getBasePath = p.getBasePath ∧
      p.getBasePath = SafePath.resolveBase cwd base ∧
      p.toString = SafePath.resolveCandidate cwd base s := by
  obtain ⟨hpb, hpr, d, hd1, hd2⟩ := make_ok_elim hcwd h1
  have h2' : SafePath.make cwd p.basePath
      (posixRelative cwd p.basePath p.resolvedPath :: t) = .ok q := h2
  obtain ⟨hqb, hqr, d2, hd21, hd22⟩ := make_ok_elim hcwd h2'
  have hbase2 : baseSegs cwd p.basePath = baseSegs cwd base := by
    rw [hpb, baseSegs_renderAbs (baseSegs_good cwd base) cwd]
  refine ⟨?_, ?_, ?_⟩
  · rw [SafePath.getBasePath, SafePath.getBasePath, hqb, hbase2, hpb]
  · rw [SafePath.getBasePath, hpb, resolveBase_eq hcwd]
  · rw [SafePath.toString, hpr, resolveCandidate_eq hcwd]

/-- C10 witness: appending `day01` to `/base/2024` keeps the base `/base`. -/
theorem C10_witness :
    (SafePath.getBasePath ⟨"/base/2024/day01".data, "/base".data⟩ =
      SafePath.getBasePath ⟨"/base/2024".data, "/base".data⟩) ∧
      SafePath.getBasePath ⟨"/base/2024".data, "/base".data⟩ =
        SafePath.resolveBase ("/".data) ("/base".data) ∧
      SafePath.toString ⟨"/base/2024".data, "/base".data⟩ =
        SafePath.resolveCandidate ("/".data) ("/base".data) [("2024".data)] :=
  C10_append_preserves_base ("/".data) ("/base".data) [("2024".data)]
    [("day01".data)] ⟨"/base/2024".data, "/base".data⟩
    ⟨"/base/2024/day01".data, "/base".data⟩ rfl rfl rfl

/-- C2: appending segments round-trips with direct construction — whenever
`SafePath(B, s...)`, its `append(t...)`, and `SafePath(B, s..., t...)` all
succeed, the appended instance and the directly constructed instance have
the same `toString()`. -/
theorem C2_append_roundtrip (cwd base : Str) (s t : List Str)
    (p q r : SafePath) (hcwd : cwd.head? = some '/')
    (h1 : SafePath.make cwd base s = .ok p)
    (h2 : SafePath.append cwd p t = .ok q)
    (h3 : SafePath.make cwd base (s ++ t) = .ok r) :
    q.toString = r.toString := by
  obtain ⟨hpb, hpr, d, hd1, hd2⟩ := make_ok_elim hcwd h1
  have h2' : SafePath.make cwd p.basePath
      (posixRelative cwd p.basePath p.resolvedPath :: t) = .ok q := h2
  obtain ⟨hqb, hqr, d2, hd21, hd22⟩ := make_ok_elim hcwd h2'
  obtain ⟨hrb, hrr, d3, hd31, hd32⟩ := make_ok_elim hcwd h3
  have hbsg : GoodSegs (baseSegs cwd base) := baseSegs_good cwd base
  have hbd : GoodSegs (baseSegs cwd base ++ d) := hd1 ▸ candSegs_good cwd base s
  have hdg : GoodSegs d := fun z hz => hbd z (List.mem_append_right _ hz)
  have hrel : posixRelative cwd p.basePath p.resolvedPath =
      if d = [] then [] else joinSlash d := by
    rw [hpb, hpr, hd1]
    exact posixRelative_renderAbs hbsg hbd cwd
  have hbase2 : baseSegs cwd p.basePath = baseSegs cwd base := by
    rw [hpb, baseSegs_renderAbs hbsg cwd]
  have hss : normCore false (baseSegs cwd base).reverse
      (((s.filter (fun a => !a.isEmpty)).map splitSlash).flatten) =
      (baseSegs cwd base ++ d).reverse := by
    have h4 := hd1
    unfold candSegs at h4
    exact List.reverse_eq_iff.mp h4
  rw [SafePath.toString, SafePath.toString, hqr, hrr]
  congr 1
  unfold candSegs
  rw [hbase2, List.filter_append, List.map_append, List.flatten_append,
    normCore_append, hss]
  by_cases hdn : d = []
  · subst hdn
    rw [hrel, if_pos rfl, List.filter_cons, if_neg (by simp), List.append_nil]
  · rw [hrel, if_neg hdn, List.filter_cons,
      if_pos (by rw [joinSlash_isEmpty_false hdg hdn]; rfl),
      List.map_cons, List.flatten_cons,
      splitSlash_joinSlash (fun z hz => (hdg z hz).2.2.2) hdn,
      normCore_append, normCore_goods hdg, List.reverse_append]

/-- C2 witness: the claim's example, `SafePath(B, "2024", "day01",
"python").append("solution.py")` against the direct five-segment
construction. -/
theorem C2_witness :
    SafePath.toString
        ⟨"/base/2024/day01/python/solution.py".data, "/base".data⟩ =
      SafePath.toString
        ⟨"/base/2024/day01/python/solution.py".data, "/base".data⟩ :=
  C2_append_roundtrip ("/".data) ("/base".data)
    [("2024".data), ("day01".data), ("python".data)] [("solution.py".data)]
    ⟨"/base/2024/day01/python".data, "/base".data⟩
    ⟨"/base/2024/day01/python/solution.py".data, "/base".data⟩
    ⟨"/base/2024/day01/python/solution.py".data, "/base".data⟩
    rfl rfl rfl rfl

end AoC
